import Mathlib

/-!
Shallow embedding of the ubkg-jkg-source graph-construction pipeline.

The embedding follows the source files:
* `app/utilities/ubkg_standardize.py` — identifier standardization,
* `app/classes/umls_reader.py` — table ingestion and relationship pair resolution,
* `app/classes/jkg_writer.py` — node/edge assembly,
* `app/classes/json_writer.py` — streaming JSON output.

Tables are modelled as lists of row records.  A polars `DataFrame.unique()`
is modelled as a stable deduplication keeping the first occurrence of each
row; `group_by(..., maintain_order=True)` groups by first-seen key with the
rows of each group in row order; joins are modelled row-wise in left order.
Nullable columns are `Option String`; a polars filter such as
`pl.col('SUPPRESS') != 'O'` drops null values (null comparisons propagate
null, and `filter` keeps only `true`), which the embedding reproduces.
-/

namespace Ubkg

/-- Stable deduplication: keeps the first occurrence of each row,
dropping rows already seen.  Models polars `DataFrame.unique()`. -/
def uniqueAux {α : Type} [DecidableEq α] (seen : List α) : List α → List α
  | [] => []
  | x :: xs => if x ∈ seen then uniqueAux seen xs else x :: uniqueAux (x :: seen) xs

/-- Deduplicated table (first occurrence kept). -/
def uniqueRows {α : Type} [DecidableEq α] (l : List α) : List α := uniqueAux [] l

/-- Models polars `group_by(key, maintain_order=True)`: one group per
first-seen key value, group members in row order. -/
def groupByKey {α κ : Type} [DecidableEq α] [DecidableEq κ] (key : α → κ) (l : List α) :
    List (κ × List α) :=
  (uniqueRows (l.map key)).map fun k => (k, l.filter fun x => key x = k)

/-- Boolean lexicographic strict comparison of character lists (computable
counterpart of `List.Lex (· < ·)`, the order on `String.data`). -/
def listCharLtb : List Char → List Char → Bool
  | [], [] => false
  | [], _ :: _ => true
  | _ :: _, [] => false
  | a :: as, b :: bs => if a < b then true else if b < a then false else listCharLtb as bs

/-- Boolean strict lexicographic comparison of strings; models the polars
string comparison `pl.col(...) < pl.col(...)`. -/
def strLt (a b : String) : Bool := listCharLtb a.data b.data

/-- Boolean lexicographic `≤` on strings. -/
def strLe (a b : String) : Bool := !(strLt b a)

/-- Insertion of a string into an ascending list. -/
def orderedInsertStr (x : String) : List String → List String
  | [] => [x]
  | y :: ys => if strLe x y then x :: y :: ys else y :: orderedInsertStr x ys

/-- Ascending sort of a string column; models polars `Expr.sort()` (and the
`DataFrame.sort` used for relationship-label nodes). -/
def sortStrings (l : List String) : List String := l.foldr orderedInsertStr []

/-- Replaces the first occurrence of the character `c` by `rep` in a list of
characters.  Models polars `Expr.str.replace(c, rep, literal=True)` for a
single-character pattern, which replaces only the first match. -/
def replaceFirstChar (c : Char) (rep : List Char) : List Char → List Char
  | [] => []
  | d :: ds => if d = c then rep ++ ds else d :: replaceFirstChar c rep ds

/-- Splits a character list on every colon; models polars
`Expr.str.split(':')` (always at least one segment; empty segments kept). -/
def splitOnColon : List Char → List (List Char)
  | [] => [[]]
  | c :: cs =>
    if c = ':' then [] :: splitOnColon cs
    else
      match splitOnColon cs with
      | [] => [[c]]
      | s :: ss => (c :: s) :: ss

/-! ## `app/utilities/ubkg_standardize.py` -/

/-- `create_codeid`: CURIE-like id built by concatenating the SAB and CODE
columns with a colon. -/
def create_codeid (SAB CODE : String) : String := SAB ++ ":" ++ CODE

/-- The nine character substitutions of `standardize_codeid`, in the order
they are chained in the source. -/
def nineSubstitutions : List (Char × List Char) :=
  [(',', ['_']), ('/', ['_']), (' ', ['_']), ('<', ['_', '_']), ('>', ['_']),
   ('+', ['-']), ('*', ['-']), ('&', ['.']), ('#', ['.'])]

/-- `standardize_codeid`: split the codeid on `:`, rebuild it from the first
and last segments, then chain the nine single-character replacements in the
listed order (each `str.replace(..., literal=True)` call replaces the first
occurrence only). -/
def standardize_codeid (codeid : String) : String :=
  ⟨nineSubstitutions.foldl (fun acc p => replaceFirstChar p.1 p.2 acc)
    ((splitOnColon codeid.data).headD [] ++ ':' :: (splitOnColon codeid.data).getLastD [])⟩

/-- Character class `[a-zA-Z0-9._-]` of the CURIE regex in
`standardize_term`. -/
def isCurieChar (c : Char) : Bool :=
  c.isAlpha || c.isDigit || c = '.' || c = '_' || c = '-'

/-- Whether a term matches the anchored regex
`^[a-zA-Z0-9._-]+:[a-zA-Z0-9._-]+$` of `standardize_term`: exactly one
colon, non-empty class-only text on both sides. -/
def isCurieLike (s : String) : Bool :=
  match splitOnColon s.data with
  | [a, b] => !a.isEmpty && !b.isEmpty && a.all isCurieChar && b.all isCurieChar
  | _ => false

/-- `standardize_term`: append a colon to a term that resembles a CURIE,
otherwise leave it unchanged. -/
def standardize_term (term : String) : String :=
  if isCurieLike term then term ++ ":" else term

/-! ## `app/classes/umls_reader.py` — table rows

Each `...Full` structure is a row of the corresponding RRF file as scanned:
the named fields are the columns the pipeline reads, and `rest` stands for
the remaining externally-configured columns of the file's schema, which
participate only in full-row deduplication (`unique()` runs before the
projection to the selected columns). -/

/-- Row of MRREL.RRF. -/
structure MrrelFull where
  CUI1 : String
  CUI2 : String
  REL : String
  RELA : Option String
  SAB : String
  SUPPRESS : Option String
  rest : List (Option String)
deriving DecidableEq

/-- The five columns of MRREL selected by `_get_concept_concept_rels`. -/
structure MrrelSel where
  CUI1 : String
  CUI2 : String
  REL : String
  RELA : Option String
  SAB : String
deriving DecidableEq

/-- `pl.col(c) != lit` used as a filter: null comparisons propagate null and
the row is dropped, so only non-null values different from `lit` pass. -/
def neqLit (o : Option String) (lit : String) : Bool :=
  match o with
  | some v => v ≠ lit
  | none => false

/-- `pl.col(c) == lit` used as a filter: only non-null values equal to
`lit` pass. -/
def eqLit (o : Option String) (lit : String) : Bool :=
  match o with
  | some v => v = lit
  | none => false

/-- `get_umls_file(filename='MRREL', cols=colrels, n_rows=1000)`: scan at
most the first 1000 rows, deduplicate, apply the SUPPRESS filter (MRREL has
a SUPPRESS column and no LAT/CURVER column), project the five requested
columns. -/
def get_mrrel (file : List MrrelFull) : List MrrelSel :=
  ((uniqueRows (file.take 1000)).filter fun r => neqLit r.SUPPRESS "O").map
    fun r => { CUI1 := r.CUI1, CUI2 := r.CUI2, REL := r.REL, RELA := r.RELA, SAB := r.SAB }

/-- A selected MRREL row with the computed `rel_label` column. -/
structure RelRow extends MrrelSel where
  rel_label : String
deriving DecidableEq

/-- The `with_columns` step of `_get_concept_concept_rels`: `rel_label` is
`REL` when `RELA` is null, else `RELA`. -/
def addRelLabel (r : MrrelSel) : RelRow :=
  { r with rel_label := match r.RELA with | none => r.REL | some a => a }

/-- Row of MRSAB.RRF. -/
structure MrsabFull where
  RSAB : String
  LAT : Option String
  CURVER : Option String
  rest : List (Option String)
deriving DecidableEq

/-- The two MRSAB columns selected in `_get_concept_concept_rels`. -/
structure MrsabSel where
  RSAB : String
  LAT : Option String
deriving DecidableEq

/-- `get_umls_file(filename='MRSAB', cols=colsabs)`: deduplicate, filter
`LAT == 'ENG'` and `CURVER == 'Y'` (MRSAB has both columns and no SUPPRESS
column), project `RSAB` and `LAT`. -/
def get_mrsab_rsab_lat (file : List MrsabFull) : List MrsabSel :=
  (((uniqueRows file).filter fun r => eqLit r.LAT "ENG").filter
      fun r => eqLit r.CURVER "Y").map fun r => { RSAB := r.RSAB, LAT := r.LAT }

/-- A relationship row joined with its MRSAB match (polars keeps the left
columns plus the right non-key column `LAT`). -/
structure RelSabRow extends RelRow where
  LAT : Option String
deriving DecidableEq

/-- Inner join of the MRREL rows with the MRSAB rows on `SAB = RSAB`
(`maintain_order='left'`). -/
def joinMrsab (rels : List RelRow) (sabs : List MrsabSel) : List RelSabRow :=
  rels.flatMap fun r =>
    (sabs.filter fun s => s.RSAB = r.SAB).map fun s => { toRelRow := r, LAT := s.LAT }

/-- Row of MRDOC.RRF (its full schema: DOCKEY, VALUE, TYPE, EXPL). -/
structure MrdocRow where
  DOCKEY : String
  VALUE : String
  TYPE : String
  EXPL : String
deriving DecidableEq

/-- The unordered pair key of `_get_forward_relationships`:
`pl.when(VALUE < EXPL).then(VALUE + "~" + EXPL).otherwise(EXPL + "~" + VALUE)`. -/
def pairGroup (r : MrdocRow) : String :=
  if strLt r.VALUE r.EXPL then r.VALUE ++ "~" ++ r.EXPL else r.EXPL ++ "~" ++ r.VALUE

/-- `get_umls_file('MRDOC')` (MRDOC has no SUPPRESS/LAT/CURVER column and no
projection is requested) followed by the two filters
`DOCKEY == 'RELA'` and `TYPE == 'rela_inverse'`. -/
def inversePairRows (mrdoc : List MrdocRow) : List MrdocRow :=
  ((uniqueRows mrdoc).filter fun r => r.DOCKEY = "RELA").filter
    fun r => r.TYPE = "rela_inverse"

/-- A row of `df_forward`. -/
structure ForwardRow where
  pair_group : String
  VALUE : String
  DOCKEY : String
  TYPE : String
  EXPL : String
deriving DecidableEq

/-- `df_forward` of `_get_forward_relationships`: group the inverse-pair
rows by pair key and aggregate `VALUE.sort().last()` (the alphabetically
last VALUE of the group) together with the last `DOCKEY`/`TYPE`/`EXPL` of
the group. -/
def get_forward_relationships (mrdoc : List MrdocRow) : List ForwardRow :=
  (groupByKey pairGroup (inversePairRows mrdoc)).map fun g =>
    { pair_group := g.1
      VALUE := (sortStrings (g.2.map MrdocRow.VALUE)).getLastD ""
      DOCKEY := (g.2.map MrdocRow.DOCKEY).getLastD ""
      TYPE := (g.2.map MrdocRow.TYPE).getLastD ""
      EXPL := (g.2.map MrdocRow.EXPL).getLastD "" }

/-- Left join of the relationship rows with `df_forward` on `RELA = VALUE`:
all left rows are kept; unmatched rows get a null right side. -/
def leftJoinForward (rels : List RelSabRow) (fwd : List ForwardRow) :
    List (RelSabRow × Option ForwardRow) :=
  rels.flatMap fun r =>
    match fwd.filter (fun f => r.RELA = some f.VALUE) with
    | [] => [(r, none)]
    | m :: ms => (m :: ms).map fun f => (r, some f)

/-- `_get_concept_concept_rels`: MRREL rows (first 1000, deduplicated,
non-suppressed) with the `rel_label` column, inner-joined with the filtered
MRSAB rows, deduplicated, left-joined with `df_forward`, deduplicated, and
projected back to `['CUI1','CUI2','REL','RELA','SAB','rel_label']`.  The
left join attaches the pair-resolution columns but no subsequent filter
removes any row. -/
def get_concept_concept_rels (mrrel : List MrrelFull) (mrsab : List MrsabFull)
    (mrdoc : List MrdocRow) : List RelRow :=
  (uniqueRows (leftJoinForward
      (uniqueRows (joinMrsab ((get_mrrel mrrel).map addRelLabel) (get_mrsab_rsab_lat mrsab)))
      (get_forward_relationships mrdoc))).map fun p => p.1.toRelRow

/-- Row of MRCONSO.RRF. -/
structure MrconsoFull where
  STR : String
  SAB : String
  CODE : String
  TTY : String
  CUI : String
  AUI : String
  ISPREF : String
  STT : String
  TS : String
  SUPPRESS : Option String
  LAT : Option String
  rest : List (Option String)
deriving DecidableEq

/-- The nine MRCONSO columns selected by `_get_concept_code_rels`. -/
structure MrconsoSel where
  STR : String
  SAB : String
  CODE : String
  TTY : String
  CUI : String
  AUI : String
  ISPREF : String
  STT : String
  TS : String
deriving DecidableEq

/-- `get_umls_file(filename='MRCONSO', cols=col_conso, clean_file=True)`:
deduplicate, apply the SUPPRESS and LAT filters (MRCONSO has both columns
and no CURVER column), project the nine requested columns.  The
quote-stripping preprocessing happens before parsing and does not affect
the row model. -/
def get_mrconso (file : List MrconsoFull) : List MrconsoSel :=
  (((uniqueRows file).filter fun r => neqLit r.SUPPRESS "O").filter
      fun r => eqLit r.LAT "ENG").map fun r =>
    { STR := r.STR, SAB := r.SAB, CODE := r.CODE, TTY := r.TTY, CUI := r.CUI,
      AUI := r.AUI, ISPREF := r.ISPREF, STT := r.STT, TS := r.TS }

/-- Row of MRDEF.RRF. -/
structure MrdefFull where
  AUI : String
  DEF : Option String
  SUPPRESS : Option String
  rest : List (Option String)
deriving DecidableEq

/-- The two MRDEF columns selected by `_get_concept_code_rels`. -/
structure MrdefSel where
  AUI : String
  DEF : Option String
deriving DecidableEq

/-- `get_umls_file(filename='MRDEF', cols=col_def, clean_file=True)`:
deduplicate, apply the SUPPRESS filter (MRDEF has a SUPPRESS column and no
LAT/CURVER column), project `AUI` and `DEF`. -/
def get_mrdef (file : List MrdefFull) : List MrdefSel :=
  ((uniqueRows file).filter fun r => neqLit r.SUPPRESS "O").map fun r =>
    { AUI := r.AUI, DEF := r.DEF }

/-- A row of `df_concept_code_rels`: the MRCONSO columns joined with `DEF`
and extended with the standardized `codeid` column. -/
structure ConsoRow where
  STR : String
  SAB : String
  CODE : String
  TTY : String
  CUI : String
  AUI : String
  ISPREF : String
  STT : String
  TS : String
  DEF : Option String
  codeid : String
deriving DecidableEq

/-- `_get_concept_code_rels`: left join of MRCONSO with MRDEF on `AUI`
(`maintain_order='left'`), then the `with_columns` steps: create `codeid`
from SAB and CODE, standardize it, and standardize the `STR` column. -/
def get_concept_code_rels (mrconso : List MrconsoFull) (mrdef : List MrdefFull) :
    List ConsoRow :=
  (get_mrconso mrconso).flatMap fun c =>
    let defs :=
      match (get_mrdef mrdef).filter (fun d => d.AUI = c.AUI) with
      | [] => [none]
      | m :: ms => (m :: ms).map fun (d : MrdefSel) => d.DEF
    defs.map fun dv =>
      { STR := standardize_term c.STR, SAB := c.SAB, CODE := c.CODE, TTY := c.TTY,
        CUI := c.CUI, AUI := c.AUI, ISPREF := c.ISPREF, STT := c.STT, TS := c.TS,
        DEF := dv, codeid := standardize_codeid (create_codeid c.SAB c.CODE) }

/-- Row of MRSTY.RRF. -/
structure MrstyFull where
  CUI : String
  STY : Option String
  rest : List (Option String)
deriving DecidableEq

/-- The two MRSTY columns selected by `_get_concept_labels_list`. -/
structure MrstyRow where
  CUI : String
  STY : Option String
deriving DecidableEq

/-- `get_umls_file(filename='MRSTY', cols=colsem)` (MRSTY has no
SUPPRESS/LAT/CURVER column): deduplicate full rows, project. -/
def get_mrsty (file : List MrstyFull) : List MrstyRow :=
  (uniqueRows file).map fun r => { CUI := r.CUI, STY := r.STY }

/-- The `with_columns` step of `_get_concept_labels_list`: empty-string
semantic types become null. -/
def normalizeSty (r : MrstyRow) : MrstyRow :=
  { r with STY := if r.STY = some "" then none else r.STY }

/-- A row of the aggregated label DataFrame `dfsty`. -/
structure LabelRow where
  CUI : String
  STY : List (Option String)
  labels : List (Option String)
deriving DecidableEq

/-! ## `app/classes/jkg_writer.py` — node and edge assembly -/

/-- `_get_concept_labels_list`: group the normalized MRSTY rows by CUI
(`maintain_order=True`), aggregate the STY column into a list, and build the
`labels` column as `pl.concat_list(pl.lit("Concept"), "STY")` (null entries
of the STY list are kept). -/
def get_concept_labels_list (mrsty : List MrstyFull) : List LabelRow :=
  (groupByKey MrstyRow.CUI ((get_mrsty mrsty).map normalizeSty)).map fun g =>
    { CUI := g.1
      STY := g.2.map MrstyRow.STY
      labels := some "Concept" :: g.2.map MrstyRow.STY }

/-- The `properties` object of a Concept node. -/
structure ConceptProps where
  id : String
  pref_term : String
  sab : String
deriving DecidableEq

/-- A Concept node dict of the nodes array. -/
structure ConceptNode where
  labels : List (Option String)
  properties : ConceptProps
deriving DecidableEq

/-- The preferred-term filter of `_get_concept_nodes_list`:
`ISPREF == 'Y'`, `STT == 'PF'`, `TS == 'P'`, then `unique()`. -/
def preferredRows (rows : List ConsoRow) : List ConsoRow :=
  uniqueRows (((rows.filter fun r => r.ISPREF = "Y").filter
      fun r => r.STT = "PF").filter fun r => r.TS = "P")

/-- `_get_concept_nodes_list`: the preferred-term rows inner-joined with the
aggregated label table on CUI; one node dict per joined row, with the
joined `labels` list and `id = "UMLS:" + CUI`. -/
def get_concept_nodes_list (mrconso : List MrconsoFull) (mrdef : List MrdefFull)
    (mrsty : List MrstyFull) : List ConceptNode :=
  (preferredRows (get_concept_code_rels mrconso mrdef)).flatMap fun c =>
    ((get_concept_labels_list mrsty).filter fun l => l.CUI = c.CUI).map fun l =>
      { labels := l.labels
        properties := { id := "UMLS:" ++ c.CUI, pref_term := c.STR, sab := "UMLS" } }

/-- The `properties` object of a Rel_Label node (`«def»` is the node's
"def" key). -/
structure RelLabelProps where
  id : String
  «def» : String
  rel_label : String
  sab : String
deriving DecidableEq

/-- A Rel_Label node dict of the nodes array. -/
structure RelLabelNode where
  labels : List String
  properties : RelLabelProps
deriving DecidableEq

/-- `_get_rel_label_list`: the distinct relationship labels of the
concept-concept DataFrame, sorted ascending, one Rel_Label node each. -/
def get_rel_label_list (rels : List RelRow) : List RelLabelNode :=
  (sortStrings (uniqueRows (rels.map RelRow.rel_label))).map fun lbl =>
    { labels := ["Rel_Label"]
      properties := { id := "UMLS:" ++ lbl, «def» := lbl, rel_label := lbl, sab := "UMLS" } }

/-- The `properties` object of an edge endpoint. -/
structure EndpointProps where
  id : String
deriving DecidableEq

/-- An edge endpoint. -/
structure Endpoint where
  properties : EndpointProps
deriving DecidableEq

/-- The `properties` object of an edge. -/
structure RelProps where
  sab : String
deriving DecidableEq

/-- An edge dict of the rels array (`«end»` is the dict's "end" key). -/
structure JkgRel where
  label : String
  «end» : Endpoint
  properties : RelProps
  start : Endpoint
deriving DecidableEq

/-- `_get_concept_concept_rel_list`: one edge dict per row of the
concept-concept relationship DataFrame; CUI2 identifies the start concept
and CUI1 the end concept. -/
def get_concept_concept_rel_list (rels : List RelRow) : List JkgRel :=
  rels.map fun r =>
    { label := r.rel_label
      «end» := { properties := { id := "UMLS:" ++ r.CUI1 } }
      properties := { sab := r.SAB }
      start := { properties := { id := "UMLS:" ++ r.CUI2 } } }

/-! ## `app/classes/json_writer.py` — streaming JSON output -/

/-- A run of `n` spaces. -/
def spaces (n : Nat) : String := ⟨List.replicate n ' '⟩

/-- The item lines written by the loop of `JsonWriter.write_list` in the
minimal-spacing branch: each item rendered by the serializer (`json.dumps`,
abstracted as `render`) behind the node indentation, with ",\n" written
before every item but the first. -/
def writeItems {α : Type} (render : α → String) (node_indent : String) : List α → String
  | [] => ""
  | [x] => node_indent ++ render x
  | x :: y :: xs => node_indent ++ render x ++ ",\n" ++ writeItems render node_indent (y :: xs)

/-- The full text produced by one `JsonWriter.write_list` call: opening
brace and key, the item lines, closing bracket and brace. -/
def write_list_text {α : Type} (render : α → String) (indent : Nat) (keyname : String)
    (items : List α) : String :=
  "\x7b\n" ++ spaces (indent / 2) ++ "\"" ++ keyname ++ "\":" ++ spaces (indent / 2) ++ "[\n"
    ++ writeItems render (spaces indent) items
    ++ "\n" ++ spaces (indent / 2) ++ "]\n\x7d\n"

/-- Python `open(path, mode)` followed by writing `text`: mode "w"
truncates the file, any other mode ("a") appends. -/
def fileAfterWrite (existing : String) (mode : String) (text : String) : String :=
  if mode = "w" then text else existing ++ text

/-- `JkgWriter.write_nodes_list` followed by `JkgWriter.write_rels_list`:
both call `JsonWriter.write_list` on the same output path with `mode='w'`. -/
def write_nodes_then_rels {α β : Type} (render : α → String) (render2 : β → String)
    (indent : Nat) (nodes : List α) (rels : List β) (initial : String) : String :=
  fileAfterWrite (fileAfterWrite initial "w" (write_list_text render indent "nodes" nodes))
    "w" (write_list_text render2 indent "rels" rels)

/-! ## Specification-side definitions used to state the claims -/

/-- The colon together with the nine substitution characters of
`standardize_codeid`. -/
def specialChars : List Char := [':', ',', '/', ' ', '<', '>', '+', '*', '&', '#']

/-- A string fragment containing no colon and none of the nine substitution
characters. -/
def cleanFragment (s : String) : Bool := s.data.all fun c => decide (c ∉ specialChars)

/-- Replacement of the first occurrence of `c`, written independently from
the recursion of `replaceFirstChar`: locate the first index of `c` and
splice in the replacement there. -/
def replaceFirstSpec (c : Char) (rep : List Char) (l : List Char) : List Char :=
  match l.findIdx? (· = c) with
  | none => l
  | some i => l.take i ++ rep ++ l.drop (i + 1)

/-- The substitution chain of `standardize_codeid` as the spec states it
(amended to first-occurrence semantics): the nine replacements applied in
the stated order `','→'_'`, `'/'→'_'`, `' '→'_'`, `'<'→'__'`, `'>'→'_'`,
`'+'→'-'`, `'*'→'-'`, `'&'→'.'`, `'#'→'.'`, each replacing the first
occurrence of its character. -/
def standardize_codeid_firstOcc (s : String) : String :=
  ⟨replaceFirstSpec '#' ['.']
    (replaceFirstSpec '&' ['.']
      (replaceFirstSpec '*' ['-']
        (replaceFirstSpec '+' ['-']
          (replaceFirstSpec '>' ['_']
            (replaceFirstSpec '<' ['_', '_']
              (replaceFirstSpec ' ' ['_']
                (replaceFirstSpec '/' ['_']
                  (replaceFirstSpec ',' ['_']
                    ((splitOnColon s.data).headD [] ++ ':' ::
                      (splitOnColon s.data).getLastD [])))))))))⟩

/-- The semantic-type labels of a concept, in encounter order: the STY
values of the ingested, null-normalized MRSTY rows carrying that CUI. -/
def conceptStyLabels (mrsty : List MrstyFull) (cui : String) : List (Option String) :=
  (((get_mrsty mrsty).map normalizeSty).filter fun r => r.CUI = cui).map MrstyRow.STY

/-! ## Sample rows for concrete evaluations -/

/-- An MRREL row whose relationship (`has_nerve_supply`) is the non-forward
member of a declared inverse pair. -/
def sampleMrrel : MrrelFull :=
  { CUI1 := "C0000005", CUI2 := "C0000039", REL := "RO",
    RELA := some "has_nerve_supply", SAB := "SAB1", SUPPRESS := some "N", rest := [] }

/-- A second, distinct MRREL row. -/
def sampleMrrel2 : MrrelFull :=
  { CUI1 := "C0000100", CUI2 := "C0000200", REL := "RB",
    RELA := none, SAB := "SAB1", SUPPRESS := some "N", rest := [] }

/-- A current English-language MRSAB row for the source `SAB1`. -/
def sampleMrsab : MrsabFull :=
  { RSAB := "SAB1", LAT := some "ENG", CURVER := some "Y", rest := [] }

/-- The two MRDOC rows declaring the inverse pair
`has_nerve_supply`/`nerve_supply_of` (one row per direction). -/
def sampleMrdoc : List MrdocRow :=
  [⟨"RELA", "nerve_supply_of", "rela_inverse", "has_nerve_supply"⟩,
   ⟨"RELA", "has_nerve_supply", "rela_inverse", "nerve_supply_of"⟩]

/-- An MRCONSO row passing the SUPPRESS/LAT ingestion filters and the
three-way preferred-term filter for concept `C1`. -/
def sampleMrconso : MrconsoFull :=
  { STR := "preferred term", SAB := "SRC", CODE := "1", TTY := "PT", CUI := "C1",
    AUI := "A1", ISPREF := "Y", STT := "PF", TS := "P",
    SUPPRESS := some "N", LAT := some "ENG", rest := [] }

/-- Two MRSTY rows for concept `C1` that differ only in an unselected
column and carry the same semantic type. -/
def sampleMrstyDup : List MrstyFull :=
  [{ CUI := "C1", STY := some "T1", rest := [some "X1"] },
   { CUI := "C1", STY := some "T1", rest := [some "X2"] }]

/-- An MRSTY table in which concept `C1` has one empty-string semantic type
next to a genuine one. -/
def sampleMrstyEmpty : List MrstyFull :=
  [{ CUI := "C1", STY := some "T1", rest := [some "X1"] },
   { CUI := "C1", STY := some "", rest := [some "X2"] }]

end Ubkg

namespace Ubkg

/-! ## Helper lemmas about the table primitives -/

theorem mem_uniqueAux {α : Type} [DecidableEq α] (x : α) :
    ∀ (l seen : List α), x ∈ uniqueAux seen l ↔ x ∈ l ∧ x ∉ seen := by
  intro l
  induction l with
  | nil => intro seen; simp [uniqueAux]
  | cons y ys ih =>
    intro seen
    simp only [uniqueAux]
    by_cases h : y ∈ seen
    · rw [if_pos h, ih]
      simp only [List.mem_cons]
      by_cases hxy : x = y
      · subst hxy; tauto
      · tauto
    · rw [if_neg h]
      simp only [List.mem_cons, ih, List.mem_cons, not_or]
      by_cases hxy : x = y
      · subst hxy; tauto
      · tauto

theorem mem_uniqueRows {α : Type} [DecidableEq α] (x : α) (l : List α) :
    x ∈ uniqueRows l ↔ x ∈ l := by
  rw [uniqueRows, mem_uniqueAux]
  simp

theorem nodup_uniqueAux {α : Type} [DecidableEq α] :
    ∀ (l seen : List α), (uniqueAux seen l).Nodup := by
  intro l
  induction l with
  | nil => intro seen; simp [uniqueAux]
  | cons y ys ih =>
    intro seen
    simp only [uniqueAux]
    by_cases h : y ∈ seen
    · rw [if_pos h]; exact ih seen
    · rw [if_neg h]
      refine List.nodup_cons.mpr ⟨fun hy => ?_, ih _⟩
      exact ((mem_uniqueAux y ys (y :: seen)).mp hy).2 (List.mem_cons_self y seen)

theorem nodup_uniqueRows {α : Type} [DecidableEq α] (l : List α) :
    (uniqueRows l).Nodup := nodup_uniqueAux l []

theorem length_filter_eq_one_of_nodup {α : Type} [DecidableEq α] :
    ∀ (l : List α), l.Nodup → ∀ k ∈ l, (l.filter fun x => x = k).length = 1 := by
  intro l
  induction l with
  | nil => intro _ k hk; cases hk
  | cons a t ih =>
    intro hnd k hk
    rw [List.nodup_cons] at hnd
    rw [List.filter_cons]
    rcases List.mem_cons.mp hk with rfl | hkt
    · have ht : t.filter (fun x => x = k) = [] := by
        refine List.filter_eq_nil_iff.mpr fun b hb => ?_
        simp only [decide_eq_true_eq]
        intro hbk
        exact hnd.1 (hbk ▸ hb)
      simp [ht]
    · have hak : ¬(a = k) := fun hak => hnd.1 (hak ▸ hkt)
      simp only [decide_eq_true_eq, if_neg hak]
      exact ih hnd.2 k hkt

/-! ## Lexicographic comparison: bridge to the `String` order -/

theorem listCharLtb_iff : ∀ (l₁ l₂ : List Char),
    listCharLtb l₁ l₂ = true ↔ List.Lex (· < ·) l₁ l₂ := by
  intro l₁
  induction l₁ with
  | nil =>
    intro l₂
    cases l₂ with
    | nil => simp [listCharLtb]
    | cons b bs =>
      simp only [listCharLtb]
      exact iff_of_true trivial List.Lex.nil
  | cons a as ih =>
    intro l₂
    cases l₂ with
    | nil => simp [listCharLtb]
    | cons b bs =>
      simp only [listCharLtb]
      by_cases hab : a < b
      · rw [if_pos hab]
        exact iff_of_true rfl (List.Lex.rel hab)
      · by_cases hba : b < a
        · rw [if_neg hab, if_pos hba]
          refine iff_of_false (by simp) fun hcon => ?_
          cases hcon with
          | cons h => exact absurd hba (lt_irrefl a)
          | rel h => exact hab h
        · have hd : a = b := le_antisymm (le_of_not_lt hba) (le_of_not_lt hab)
          subst hd
          rw [if_neg hab, if_neg hba, List.Lex.cons_iff]
          exact ih bs

theorem strLt_iff (a b : String) : strLt a b = true ↔ a < b := by
  rw [strLt, listCharLtb_iff, String.lt_iff_toList_lt]
  exact Iff.rfl

theorem strLe_iff (a b : String) : strLe a b = true ↔ a ≤ b := by
  constructor
  · intro h
    rw [strLe, Bool.not_eq_true'] at h
    refine le_of_not_lt fun hlt => ?_
    rw [← strLt_iff b a] at hlt
    rw [h] at hlt
    cases hlt
  · intro h
    rw [strLe, Bool.not_eq_true']
    cases hb : strLt b a
    · rfl
    · exact absurd ((strLt_iff b a).mp hb) (not_lt.mpr h)

/-! ## Sorting lemmas -/

theorem mem_orderedInsertStr {x y : String} : ∀ (l : List String),
    y ∈ orderedInsertStr x l ↔ y = x ∨ y ∈ l := by
  intro l
  induction l with
  | nil => simp [orderedInsertStr]
  | cons z zs ih =>
    simp only [orderedInsertStr]
    by_cases h : strLe x z = true
    · rw [if_pos h]
      simp only [List.mem_cons]
    · rw [if_neg h]
      simp only [List.mem_cons, ih]
      tauto

theorem mem_sortStrings {y : String} : ∀ (l : List String), y ∈ sortStrings l ↔ y ∈ l := by
  intro l
  induction l with
  | nil => simp [sortStrings]
  | cons x xs ih =>
    show y ∈ orderedInsertStr x (sortStrings xs) ↔ _
    rw [mem_orderedInsertStr, ih]
    simp [List.mem_cons]

theorem sorted_orderedInsertStr (x : String) : ∀ (l : List String),
    l.Sorted (· ≤ ·) → (orderedInsertStr x l).Sorted (· ≤ ·) := by
  intro l
  induction l with
  | nil => intro _; simp [orderedInsertStr]
  | cons z zs ih =>
    intro hs
    rw [List.sorted_cons] at hs
    simp only [orderedInsertStr]
    by_cases h : strLe x z = true
    · rw [if_pos h, List.sorted_cons]
      refine ⟨fun b hb => ?_, List.sorted_cons.mpr hs⟩
      rcases List.mem_cons.mp hb with rfl | hb2
      · exact (strLe_iff x b).mp h
      · exact le_trans ((strLe_iff x z).mp h) (hs.1 b hb2)
    · rw [if_neg h, List.sorted_cons]
      have hzx : z ≤ x := le_of_not_le fun hxz => h ((strLe_iff x z).mpr hxz)
      refine ⟨fun b hb => ?_, ih hs.2⟩
      rcases (mem_orderedInsertStr zs).mp hb with rfl | hb2
      · exact hzx
      · exact hs.1 b hb2

theorem sorted_sortStrings : ∀ (l : List String), (sortStrings l).Sorted (· ≤ ·) := by
  intro l
  induction l with
  | nil => simp [sortStrings]
  | cons x xs ih =>
    show (orderedInsertStr x (sortStrings xs)).Sorted (· ≤ ·)
    exact sorted_orderedInsertStr x _ ih

theorem getLastD_mem_cons {α : Type} : ∀ (l : List α) (d : α), l.getLastD d ∈ d :: l := by
  intro l
  induction l with
  | nil => intro d; simp
  | cons a t ih =>
    intro d
    rw [List.getLastD_cons]
    exact List.mem_cons_of_mem d (ih a)

theorem getLastD_mem {α : Type} : ∀ (l : List α) (d : α), l ≠ [] → l.getLastD d ∈ l := by
  intro l
  cases l with
  | nil => intro d h; exact absurd rfl h
  | cons a t =>
    intro d _
    rw [List.getLastD_cons]
    exact getLastD_mem_cons t a

theorem le_getLastD_of_sorted : ∀ (l : List String), l.Sorted (· ≤ ·) →
    ∀ (d : String), ∀ y ∈ l, y ≤ l.getLastD d := by
  intro l
  induction l with
  | nil => intro _ d y hy; cases hy
  | cons a t ih =>
    intro hs d y hy
    rw [List.getLastD_cons]
    rw [List.sorted_cons] at hs
    rcases List.mem_cons.mp hy with rfl | hyt
    · rcases List.mem_cons.mp (getLastD_mem_cons t y) with h | h
      · rw [h]
      · exact hs.1 _ h
    · exact ih hs.2 a y hyt

theorem sortStrings_ne_nil {l : List String} (h : l ≠ []) : sortStrings l ≠ [] := by
  cases l with
  | nil => exact absurd rfl h
  | cons x xs =>
    intro hcon
    have hx : x ∈ sortStrings (x :: xs) := (mem_sortStrings (x :: xs)).mpr (List.mem_cons_self x xs)
    rw [hcon] at hx
    cases hx

/-- The aggregated `VALUE.sort().last()` of a non-empty group is a member of
the group's VALUE column and an upper bound for it. -/
theorem sortStrings_getLastD_spec (l : List String) (hne : l ≠ []) :
    (sortStrings l).getLastD "" ∈ l ∧ ∀ y ∈ l, y ≤ (sortStrings l).getLastD "" := by
  constructor
  · exact (mem_sortStrings l).mp (getLastD_mem _ "" (sortStrings_ne_nil hne))
  · intro y hy
    exact le_getLastD_of_sorted (sortStrings l) (sorted_sortStrings l) ""
      y ((mem_sortStrings l).mpr hy)

/-! ## String-level lemmas -/

theorem string_append_left_cancel {p a b : String} (h : p ++ a = p ++ b) : a = b := by
  have hd := congrArg String.data h
  rw [String.data_append, String.data_append] at hd
  exact String.ext (List.append_cancel_left hd)

theorem splitOnColon_no_colon : ∀ (l : List Char), ':' ∉ l → splitOnColon l = [l] := by
  intro l
  induction l with
  | nil => intro _; rfl
  | cons c cs ih =>
    intro h
    have hc : ¬(c = ':') := fun hc => h (hc ▸ List.mem_cons_self c cs)
    have hcs : ':' ∉ cs := fun hm => h (List.mem_cons_of_mem c hm)
    simp only [splitOnColon, if_neg hc, ih hcs]

theorem splitOnColon_append : ∀ (l₁ l₂ : List Char), ':' ∉ l₁ →
    splitOnColon (l₁ ++ ':' :: l₂) = l₁ :: splitOnColon l₂ := by
  intro l₁ l₂
  induction l₁ with
  | nil => intro _; simp [splitOnColon]
  | cons c cs ih =>
    intro h
    have hc : ¬(c = ':') := fun hc => h (hc ▸ List.mem_cons_self c cs)
    have hcs : ':' ∉ cs := fun hm => h (List.mem_cons_of_mem c hm)
    simp only [List.cons_append, splitOnColon, if_neg hc, List.append_eq]
    rw [ih hcs]

theorem replaceFirstChar_of_not_mem (c : Char) (rep : List Char) :
    ∀ (l : List Char), c ∉ l → replaceFirstChar c rep l = l := by
  intro l
  induction l with
  | nil => intro _; rfl
  | cons d ds ih =>
    intro h
    have hd : ¬(d = c) := fun hd => h (hd ▸ List.mem_cons_self d ds)
    have hds : c ∉ ds := fun hm => h (List.mem_cons_of_mem d hm)
    simp only [replaceFirstChar, if_neg hd, ih hds]

theorem clean_not_mem {s : String} (h : cleanFragment s = true) {c : Char}
    (hc : c ∈ specialChars) : c ∉ s.data := by
  intro hmem
  rw [cleanFragment, List.all_eq_true] at h
  exact of_decide_eq_true (h c hmem) hc

/-- `replaceFirstChar` agrees with the find-and-splice description
`replaceFirstSpec`. -/
theorem replaceFirstChar_eq_spec (c : Char) (rep : List Char) :
    ∀ (l : List Char), replaceFirstChar c rep l = replaceFirstSpec c rep l := by
  intro l
  induction l with
  | nil => rfl
  | cons d ds ih =>
    by_cases hd : d = c
    · subst hd
      simp [replaceFirstChar, replaceFirstSpec, List.findIdx?_cons]
    · simp only [replaceFirstChar, if_neg hd, replaceFirstSpec, List.findIdx?_cons]
      have hdec : decide (d = c) = false := decide_eq_false hd
      rw [hdec]
      simp only [Bool.false_eq_true, if_neg (Bool.false_ne_true)]
      rw [ih, replaceFirstSpec]
      cases hf : ds.findIdx? (· = c) with
      | none => simp [List.findIdx?_succ, hf]
      | some i => simp [List.findIdx?_succ, hf, List.take_succ_cons, List.drop_succ_cons]

/-! ## Membership lemmas for the pipeline stages -/

theorem mem_leftJoinForward {rels : List RelSabRow} {fwd : List ForwardRow}
    {p : RelSabRow × Option ForwardRow} (hp : p ∈ leftJoinForward rels fwd) :
    p.1 ∈ rels := by
  rw [leftJoinForward, List.mem_flatMap] at hp
  obtain ⟨r, hr, hpr⟩ := hp
  revert hpr
  cases hf : fwd.filter fun f => r.RELA = some f.VALUE with
  | nil =>
    intro hpr
    have h := List.mem_singleton.mp hpr
    subst h
    exact hr
  | cons m ms =>
    intro hpr
    rw [List.mem_map] at hpr
    obtain ⟨f, _, hpf⟩ := hpr
    rw [← hpf]
    exact hr

theorem mem_joinMrsab {rels : List RelRow} {sabs : List MrsabSel} {j : RelSabRow}
    (hj : j ∈ joinMrsab rels sabs) : j.toRelRow ∈ rels := by
  rw [joinMrsab, List.mem_flatMap] at hj
  obtain ⟨r, hr, hjr⟩ := hj
  rw [List.mem_map] at hjr
  obtain ⟨s, _, hjs⟩ := hjr
  rw [← hjs]
  exact hr

/-- Every row of the concept-concept relationship DataFrame carries
`rel_label = RELA` if `RELA` is non-null, else `rel_label = REL`. -/
theorem rel_label_spec (mrrel : List MrrelFull) (mrsab : List MrsabFull)
    (mrdoc : List MrdocRow) :
    ∀ r ∈ get_concept_concept_rels mrrel mrsab mrdoc,
      r.rel_label = match r.RELA with | none => r.REL | some a => a := by
  intro r hr
  rw [get_concept_concept_rels, List.mem_map] at hr
  obtain ⟨p, hp, hpr⟩ := hr
  rw [mem_uniqueRows] at hp
  have h1 := mem_leftJoinForward hp
  rw [mem_uniqueRows] at h1
  have h2 := mem_joinMrsab h1
  rw [List.mem_map] at h2
  obtain ⟨sel, _, hsel⟩ := h2
  rw [← hpr, ← hsel]
  rfl

theorem mem_groupByKey {α κ : Type} [DecidableEq α] [DecidableEq κ] {key : α → κ}
    {l : List α} {g : κ × List α} (hg : g ∈ groupByKey key l) :
    g.1 ∈ uniqueRows (l.map key) ∧ g.2 = l.filter fun x => key x = g.1 := by
  rw [groupByKey, List.mem_map] at hg
  obtain ⟨k, hk, hkg⟩ := hg
  rw [← hkg]
  exact ⟨hk, rfl⟩

/-- Every row of the aggregated label table `dfsty` carries the labels list
`"Concept"` followed by its concept's semantic-type labels. -/
theorem labels_of_mem_concept_labels_list {mrsty : List MrstyFull} {l : LabelRow}
    (hl : l ∈ get_concept_labels_list mrsty) :
    l.labels = some "Concept" :: conceptStyLabels mrsty l.CUI := by
  rw [get_concept_labels_list, List.mem_map] at hl
  obtain ⟨g, hg, hgl⟩ := hl
  have h2 := (mem_groupByKey hg).2
  rw [← hgl]
  show some "Concept" :: g.2.map MrstyRow.STY = some "Concept" :: conceptStyLabels mrsty g.1
  rw [h2]
  rfl

/-- Decomposition of a Concept node: it comes from one preferred-term row
inner-joined with one aggregated-label row sharing its CUI. -/
theorem mem_concept_nodes_decomp {mrconso : List MrconsoFull} {mrdef : List MrdefFull}
    {mrsty : List MrstyFull} {n : ConceptNode}
    (hn : n ∈ get_concept_nodes_list mrconso mrdef mrsty) :
    ∃ c ∈ preferredRows (get_concept_code_rels mrconso mrdef),
      ∃ l ∈ get_concept_labels_list mrsty, l.CUI = c.CUI ∧
        n = { labels := l.labels,
              properties := { id := "UMLS:" ++ c.CUI, pref_term := c.STR, sab := "UMLS" } } := by
  rw [get_concept_nodes_list, List.mem_flatMap] at hn
  obtain ⟨c, hc, hcl⟩ := hn
  rw [List.mem_map] at hcl
  obtain ⟨l, hl, hln⟩ := hcl
  rw [List.mem_filter] at hl
  exact ⟨c, hc, l, hl.1, of_decide_eq_true hl.2, hln.symm⟩

theorem length_filter_map {α β : Type} (f : α → β) (p : β → Bool) :
    ∀ l : List α, ((l.map f).filter p).length = (l.filter fun a => p (f a)).length := by
  intro l
  induction l with
  | nil => rfl
  | cons a t ih =>
    simp only [List.map_cons, List.filter_cons]
    cases hp : p (f a)
    · simp [ih]
    · simp [ih]

/-! ## Claim theorems -/

/-- C3: the concept-concept relationship DataFrame is built from at most
the first 1000 rows of MRREL (`n_rows=1000`): two MRREL files agreeing on
their first 1000 rows produce the same relationship table, the same
Rel_Label node list, and the same edge list, so rows beyond the first
1000 never contribute. -/
theorem mrrel_limited_to_1000_rows (mrrel mrrel' : List MrrelFull)
    (mrsab : List MrsabFull) (mrdoc : List MrdocRow)
    (h : mrrel.take 1000 = mrrel'.take 1000) :
    get_concept_concept_rels mrrel mrsab mrdoc = get_concept_concept_rels mrrel' mrsab mrdoc
    ∧ get_rel_label_list (get_concept_concept_rels mrrel mrsab mrdoc)
        = get_rel_label_list (get_concept_concept_rels mrrel' mrsab mrdoc)
    ∧ get_concept_concept_rel_list (get_concept_concept_rels mrrel mrsab mrdoc)
        = get_concept_concept_rel_list (get_concept_concept_rels mrrel' mrsab mrdoc) := by
  have h1 : get_mrrel mrrel = get_mrrel mrrel' := by
    rw [get_mrrel, get_mrrel, h]
  have h2 : get_concept_concept_rels mrrel mrsab mrdoc
      = get_concept_concept_rels mrrel' mrsab mrdoc := by
    rw [get_concept_concept_rels, get_concept_concept_rels, h1]
  exact ⟨h2, by rw [h2], by rw [h2]⟩

/-- Witness for C3: a 1001-row MRREL file and its 1000-row prefix agree on
the first 1000 rows, so the 1001st row contributes nothing. -/
theorem mrrel_limited_to_1000_rows_witness :
    ((List.replicate 1000 sampleMrrel ++ [sampleMrrel2]).take 1000
        = (List.replicate 1000 sampleMrrel).take 1000)
    ∧ (get_concept_concept_rels (List.replicate 1000 sampleMrrel ++ [sampleMrrel2])
          [sampleMrsab] sampleMrdoc
        = get_concept_concept_rels (List.replicate 1000 sampleMrrel) [sampleMrsab] sampleMrdoc
      ∧ get_rel_label_list (get_concept_concept_rels
            (List.replicate 1000 sampleMrrel ++ [sampleMrrel2]) [sampleMrsab] sampleMrdoc)
          = get_rel_label_list (get_concept_concept_rels
              (List.replicate 1000 sampleMrrel) [sampleMrsab] sampleMrdoc)
      ∧ get_concept_concept_rel_list (get_concept_concept_rels
            (List.replicate 1000 sampleMrrel ++ [sampleMrrel2]) [sampleMrsab] sampleMrdoc)
          = get_concept_concept_rel_list (get_concept_concept_rels
              (List.replicate 1000 sampleMrrel) [sampleMrsab] sampleMrdoc)) := by
  have hl : (1000 : Nat) ≤ (List.replicate 1000 sampleMrrel).length := by
    rw [List.length_replicate]
  have ht : (List.replicate 1000 sampleMrrel ++ [sampleMrrel2]).take 1000
      = (List.replicate 1000 sampleMrrel).take 1000 := by
    rw [List.take_append_of_le_length hl]
  exact ⟨ht, mrrel_limited_to_1000_rows _ _ _ _ ht⟩

/-- C7: exactly one edge is emitted per row of the resolved concept-concept
relationship table; its label is `RELA` if non-null else `REL`, its start
references CUI2, its end references CUI1, and its properties carry the
row's SAB. -/
theorem concept_concept_edges_spec (mrrel : List MrrelFull) (mrsab : List MrsabFull)
    (mrdoc : List MrdocRow) :
    get_concept_concept_rel_list (get_concept_concept_rels mrrel mrsab mrdoc)
      = (get_concept_concept_rels mrrel mrsab mrdoc).map fun r =>
          { label := match r.RELA with | none => r.REL | some a => a
            «end» := { properties := { id := "UMLS:" ++ r.CUI1 } }
            properties := { sab := r.SAB }
            start := { properties := { id := "UMLS:" ++ r.CUI2 } } } := by
  rw [get_concept_concept_rel_list]
  exact List.map_congr_left fun r hr => by
    rw [rel_label_spec mrrel mrsab mrdoc r hr]

/-- C1 (evaluation of the defect): with MRDOC declaring the inverse pair
`has_nerve_supply`/`nerve_supply_of`, the resolver marks `nerve_supply_of`
forward, yet a concept-concept relationship table containing only a
`has_nerve_supply`-labeled row still yields that row after pair
resolution — the left join in `_get_concept_concept_rels` never filters
non-forward rows, so the edge set is not emptied. -/
theorem inverse_edges_not_filtered :
    get_forward_relationships sampleMrdoc
      = [{ pair_group := "has_nerve_supply~nerve_supply_of", VALUE := "nerve_supply_of",
           DOCKEY := "RELA", TYPE := "rela_inverse", EXPL := "nerve_supply_of" }]
    ∧ get_concept_concept_rels [sampleMrrel] [sampleMrsab] sampleMrdoc
      = [{ CUI1 := "C0000005", CUI2 := "C0000039", REL := "RO",
           RELA := some "has_nerve_supply", SAB := "SAB1",
           rel_label := "has_nerve_supply" }] :=
  ⟨by decide, by decide⟩

/-- C2 (evaluation of the defect): both `write_list` calls open the output
path with `mode='w'`, so the file after writing the nodes array and then
the rels array is exactly the rels document: it is independent of the
nodes array and of any earlier file content, and the nodes array is lost
instead of becoming a sibling key. -/
theorem write_rels_overwrites_nodes {α β : Type} (render : α → String)
    (render2 : β → String) (indent : Nat) (nodes nodes' : List α) (rels : List β)
    (initial initial' : String) :
    write_nodes_then_rels render render2 indent nodes rels initial
      = write_list_text render2 indent "rels" rels
    ∧ write_nodes_then_rels render render2 indent nodes rels initial
      = write_nodes_then_rels render render2 indent nodes' rels initial' := by
  constructor <;> simp [write_nodes_then_rels, fileAfterWrite]

/-- C4 (counterexample): `standardize_codeid` replaces only the first
occurrence of each substitution character: on `"AB:a,,b"` the second comma
survives, contradicting the claim that every occurrence is replaced. -/
theorem standardize_codeid_second_comma_kept :
    standardize_codeid "AB:a,,b" = "AB:a_,b"
    ∧ ',' ∈ (standardize_codeid "AB:a,,b").data :=
  ⟨by decide, by decide⟩

/-- C4 (amended): `standardize_codeid` applies the nine literal character
substitutions in the stated order, each replacing only the first
occurrence of its character: it agrees with the find-first-and-splice
chain `standardize_codeid_firstOcc`. -/
theorem standardize_codeid_first_occurrence (s : String) :
    standardize_codeid s = standardize_codeid_firstOcc s := by
  rw [standardize_codeid, standardize_codeid_firstOcc]
  simp only [nineSubstitutions, List.foldl_cons, List.foldl_nil, replaceFirstChar_eq_spec]

/-- C9 (counterexample): the collapse law fails when the source
abbreviation itself contains a colon, even though the code portion `"c"`
is clean: `normalize_id(build_id("A:B", "A:B:c"))` is `"A:c"`, not
`"A:B:c"`. -/
theorem collapse_fails_for_colon_sab :
    cleanFragment "c" = true
    ∧ standardize_codeid (create_codeid "A:B" (create_codeid "A:B" "c")) = "A:c"
    ∧ standardize_codeid (create_codeid "A:B" (create_codeid "A:B" "c"))
        ≠ create_codeid "A:B" "c" :=
  ⟨by decide, by decide, by decide⟩

/-- C9 (amended): for a source abbreviation `S` and a code `C` that both
contain no colon and no special-substitution character,
`normalize_id(build_id(S, S + ":" + C))` collapses the doubled source
prefix and returns `S + ":" + C`. -/
theorem standardize_codeid_collapses_doubled_sab (S C : String)
    (hS : cleanFragment S = true) (hC : cleanFragment C = true) :
    standardize_codeid (create_codeid S (create_codeid S C)) = create_codeid S C := by
  have hScolon : ':' ∉ S.data := clean_not_mem hS (by decide)
  have hCcolon : ':' ∉ C.data := clean_not_mem hC (by decide)
  have hd1 : (create_codeid S (create_codeid S C)).data
      = S.data ++ ':' :: (S.data ++ ':' :: C.data) := by
    simp [create_codeid, String.data_append]
  have hd2 : (create_codeid S C).data = S.data ++ ':' :: C.data := by
    simp [create_codeid, String.data_append]
  have hsplit : splitOnColon (create_codeid S (create_codeid S C)).data
      = [S.data, S.data, C.data] := by
    rw [hd1, splitOnColon_append _ _ hScolon, splitOnColon_append _ _ hScolon,
        splitOnColon_no_colon _ hCcolon]
  have hnm : ∀ c ∈ ([',', '/', ' ', '<', '>', '+', '*', '&', '#'] : List Char),
      c ∉ S.data ++ ':' :: C.data := by
    intro c hc hmem
    rcases List.mem_append.mp hmem with h | h
    · fin_cases hc <;> exact clean_not_mem hS (by decide) h
    · rcases List.mem_cons.mp h with h | h
      · fin_cases hc <;> exact absurd h (by decide)
      · fin_cases hc <;> exact clean_not_mem hC (by decide) h
  have hfold : nineSubstitutions.foldl (fun acc p => replaceFirstChar p.1 p.2 acc)
      (S.data ++ ':' :: C.data) = S.data ++ ':' :: C.data := by
    simp only [nineSubstitutions, List.foldl_cons, List.foldl_nil]
    rw [replaceFirstChar_of_not_mem _ _ _ (hnm ',' (by decide)),
        replaceFirstChar_of_not_mem _ _ _ (hnm '/' (by decide)),
        replaceFirstChar_of_not_mem _ _ _ (hnm ' ' (by decide)),
        replaceFirstChar_of_not_mem _ _ _ (hnm '<' (by decide)),
        replaceFirstChar_of_not_mem _ _ _ (hnm '>' (by decide)),
        replaceFirstChar_of_not_mem _ _ _ (hnm '+' (by decide)),
        replaceFirstChar_of_not_mem _ _ _ (hnm '*' (by decide)),
        replaceFirstChar_of_not_mem _ _ _ (hnm '&' (by decide)),
        replaceFirstChar_of_not_mem _ _ _ (hnm '#' (by decide))]
  rw [standardize_codeid, hsplit]
  simp only [List.headD_cons, List.getLastD_cons, List.getLastD_nil]
  rw [hfold]
  exact String.ext hd2.symm

/-- Witness for the amended C9: `normalize_id("GO:GO:12345") = "GO:12345"`. -/
theorem standardize_codeid_collapses_doubled_sab_witness :
    (cleanFragment "GO" = true ∧ cleanFragment "12345" = true)
    ∧ standardize_codeid (create_codeid "GO" (create_codeid "GO" "12345"))
        = create_codeid "GO" "12345" :=
  ⟨⟨by decide, by decide⟩,
    standardize_codeid_collapses_doubled_sab "GO" "12345" (by decide) (by decide)⟩

/-- C8 (counterexample): duplicate semantic-type labels are not removed:
two deduplicated MRSTY rows that differ only in an unselected column give
the emitted Concept node the labels list `["Concept", "T1", "T1"]`, whose
tail contains a duplicate. -/
theorem concept_labels_duplicates_kept :
    (get_concept_nodes_list [sampleMrconso] [] sampleMrstyDup).map ConceptNode.labels
      = [[some "Concept", some "T1", some "T1"]]
    ∧ ¬ ([some "T1", some "T1"] : List (Option String)).Nodup :=
  ⟨by decide, by decide⟩

/-- C8 (amended): every emitted Concept node's labels list begins with the
fixed label "Concept" and continues with that concept's semantic-type
labels in encounter order; duplicate semantic types are kept, not
removed. -/
theorem concept_labels_start_with_concept (mrconso : List MrconsoFull)
    (mrdef : List MrdefFull) (mrsty : List MrstyFull) :
    ∀ n ∈ get_concept_nodes_list mrconso mrdef mrsty,
      ∃ cui, n.properties.id = "UMLS:" ++ cui
        ∧ n.labels = some "Concept" :: conceptStyLabels mrsty cui := by
  intro n hn
  obtain ⟨c, hc, l, hl, hlc, hn2⟩ := mem_concept_nodes_decomp hn
  refine ⟨c.CUI, by rw [hn2], ?_⟩
  rw [hn2]
  show l.labels = some "Concept" :: conceptStyLabels mrsty c.CUI
  rw [labels_of_mem_concept_labels_list hl, hlc]

/-- Witness for the amended C8 at a concrete node. -/
theorem concept_labels_start_with_concept_witness :
    ((⟨[some "Concept", some "T1", some "T1"],
        "UMLS:C1", "preferred term", "UMLS"⟩ : ConceptNode)
      ∈ get_concept_nodes_list [sampleMrconso] [] sampleMrstyDup)
    ∧ ∃ cui,
        (⟨[some "Concept", some "T1", some "T1"],
          "UMLS:C1", "preferred term", "UMLS"⟩ : ConceptNode).properties.id
            = "UMLS:" ++ cui
        ∧ (⟨[some "Concept", some "T1", some "T1"],
            "UMLS:C1", "preferred term", "UMLS"⟩ : ConceptNode).labels
            = some "Concept" :: conceptStyLabels sampleMrstyDup cui :=
  ⟨by decide,
    concept_labels_start_with_concept [sampleMrconso] [] sampleMrstyDup _ (by decide)⟩

/-- C10: an empty-string semantic type is normalized to null and the null
stays in the aggregated list: every Concept node emitted for such a
concept has "Concept" as the head of its labels list and a literal null
among the remaining labels. -/
theorem empty_sty_null_kept (mrconso : List MrconsoFull) (mrdef : List MrdefFull)
    (mrsty : List MrstyFull) (c : String)
    (h : ∃ row ∈ get_mrsty mrsty, row.CUI = c ∧ row.STY = some "") :
    ∀ n ∈ get_concept_nodes_list mrconso mrdef mrsty,
      n.properties.id = "UMLS:" ++ c →
        n.labels.head? = some (some "Concept") ∧ none ∈ n.labels.tail := by
  intro n hn hid
  obtain ⟨cr, hcr, l, hl, hlc, hn2⟩ := mem_concept_nodes_decomp hn
  have hcui : cr.CUI = c := by
    rw [hn2] at hid
    exact string_append_left_cancel hid
  have hlab : n.labels = some "Concept" :: conceptStyLabels mrsty cr.CUI := by
    rw [hn2]
    show l.labels = _
    rw [labels_of_mem_concept_labels_list hl, hlc]
  rw [hlab]
  refine ⟨rfl, ?_⟩
  show none ∈ conceptStyLabels mrsty cr.CUI
  rw [hcui]
  obtain ⟨row, hrow, hrc, hrs⟩ := h
  rw [conceptStyLabels, List.mem_map]
  refine ⟨normalizeSty row, ?_, ?_⟩
  · rw [List.mem_filter]
    refine ⟨List.mem_map.mpr ⟨row, hrow, rfl⟩, ?_⟩
    simp [normalizeSty, hrc]
  · simp [normalizeSty, hrs]

/-- Witness for C10 at a concrete table with an empty-string semantic
type. -/
theorem empty_sty_null_kept_witness :
    (∃ row ∈ get_mrsty sampleMrstyEmpty, row.CUI = "C1" ∧ row.STY = some "")
    ∧ ∀ n ∈ get_concept_nodes_list [sampleMrconso] [] sampleMrstyEmpty,
        n.properties.id = "UMLS:" ++ "C1" →
          n.labels.head? = some (some "Concept") ∧ none ∈ n.labels.tail :=
  ⟨⟨{ CUI := "C1", STY := some "" }, by decide, by decide, by decide⟩,
    empty_sty_null_kept [sampleMrconso] [] sampleMrstyEmpty "C1"
      ⟨⟨"C1", some ""⟩, by decide, by decide, by decide⟩⟩

/-- C6: a concept identifier appears in the Concept node output iff it has
at least one concept-code row simultaneously satisfying `ISPREF='Y'`,
`STT='PF'` and `TS='P'` and at least one row in the aggregated
semantic-type label table — the two sides are combined with an inner
join. -/
theorem concept_node_iff (mrconso : List MrconsoFull) (mrdef : List MrdefFull)
    (mrsty : List MrstyFull) (c : String) :
    (∃ n ∈ get_concept_nodes_list mrconso mrdef mrsty, n.properties.id = "UMLS:" ++ c)
    ↔ ((∃ r ∈ get_concept_code_rels mrconso mrdef,
          r.CUI = c ∧ r.ISPREF = "Y" ∧ r.STT = "PF" ∧ r.TS = "P")
       ∧ ∃ g ∈ get_concept_labels_list mrsty, g.CUI = c) := by
  constructor
  · rintro ⟨n, hn, hid⟩
    obtain ⟨cr, hcr, l, hl, hlc, hn2⟩ := mem_concept_nodes_decomp hn
    have hcui : cr.CUI = c := by
      rw [hn2] at hid
      exact string_append_left_cancel hid
    rw [preferredRows, mem_uniqueRows, List.mem_filter] at hcr
    obtain ⟨hcr1, hts⟩ := hcr
    rw [List.mem_filter] at hcr1
    obtain ⟨hcr2, hstt⟩ := hcr1
    rw [List.mem_filter] at hcr2
    obtain ⟨hcr3, hpref⟩ := hcr2
    exact ⟨⟨cr, hcr3, hcui, of_decide_eq_true hpref, of_decide_eq_true hstt,
      of_decide_eq_true hts⟩, ⟨l, hl, hlc.trans hcui⟩⟩
  · rintro ⟨⟨r, hr, hrc, h1, h2, h3⟩, ⟨g, hg, hgc⟩⟩
    refine ⟨{ labels := g.labels,
              properties := { id := "UMLS:" ++ r.CUI, pref_term := r.STR, sab := "UMLS" } },
            ?_, by rw [hrc]⟩
    rw [get_concept_nodes_list, List.mem_flatMap]
    refine ⟨r, ?_, ?_⟩
    · rw [preferredRows, mem_uniqueRows, List.mem_filter, List.mem_filter, List.mem_filter]
      exact ⟨⟨⟨hr, decide_eq_true h1⟩, decide_eq_true h2⟩, decide_eq_true h3⟩
    · rw [List.mem_map]
      refine ⟨g, ?_, rfl⟩
      rw [List.mem_filter]
      exact ⟨hg, decide_eq_true (hgc.trans hrc.symm)⟩

/-- C5: for every pair key occurring among the inverse-pair declaration
rows, `df_forward` contains exactly one row with that key, and its VALUE
is the lexicographically greatest VALUE string occurring in the group. -/
theorem forward_unique_and_greatest (mrdoc : List MrdocRow) (k : String)
    (hk : k ∈ (inversePairRows mrdoc).map pairGroup) :
    ((get_forward_relationships mrdoc).filter fun r => r.pair_group = k).length = 1
    ∧ ∀ r ∈ get_forward_relationships mrdoc, r.pair_group = k →
        r.VALUE ∈ ((inversePairRows mrdoc).filter fun p => pairGroup p = k).map MrdocRow.VALUE
        ∧ ∀ v ∈ ((inversePairRows mrdoc).filter fun p => pairGroup p = k).map MrdocRow.VALUE,
            v ≤ r.VALUE := by
  constructor
  · have hlen : ((get_forward_relationships mrdoc).filter fun r => r.pair_group = k).length
        = ((uniqueRows ((inversePairRows mrdoc).map pairGroup)).filter
            fun x => x = k).length := by
      rw [get_forward_relationships, groupByKey, length_filter_map, length_filter_map]
    rw [hlen]
    exact length_filter_eq_one_of_nodup _ (nodup_uniqueRows _) k
      ((mem_uniqueRows k _).mpr hk)
  · intro r hr hrk
    rw [get_forward_relationships, List.mem_map] at hr
    obtain ⟨g, hg, hgr⟩ := hr
    have hmem := mem_groupByKey hg
    have hg1 : g.1 = k := by rw [← hrk, ← hgr]
    have hcontent : g.2 = (inversePairRows mrdoc).filter fun p => pairGroup p = k := by
      rw [hmem.2, hg1]
    have hne : g.2.map MrdocRow.VALUE ≠ [] := by
      rw [hcontent]
      obtain ⟨p0, hp0, hp0k⟩ := List.mem_map.mp hk
      intro hcon
      rw [List.map_eq_nil_iff] at hcon
      have hp0f : p0 ∈ (inversePairRows mrdoc).filter fun p => pairGroup p = k :=
        List.mem_filter.mpr ⟨hp0, decide_eq_true hp0k⟩
      rw [hcon] at hp0f
      cases hp0f
    have hval : r.VALUE = (sortStrings (g.2.map MrdocRow.VALUE)).getLastD "" := by
      rw [← hgr]
    have hspec := sortStrings_getLastD_spec (g.2.map MrdocRow.VALUE) hne
    rw [hval, ← hcontent]
    exact hspec

/-- Witness for C5 at the `has_nerve_supply`/`nerve_supply_of` pair. -/
theorem forward_unique_and_greatest_witness :
    ("has_nerve_supply~nerve_supply_of" ∈ (inversePairRows sampleMrdoc).map pairGroup)
    ∧ (((get_forward_relationships sampleMrdoc).filter
          fun r => r.pair_group = "has_nerve_supply~nerve_supply_of").length = 1
      ∧ ∀ r ∈ get_forward_relationships sampleMrdoc,
          r.pair_group = "has_nerve_supply~nerve_supply_of" →
            r.VALUE ∈ ((inversePairRows sampleMrdoc).filter
                fun p => pairGroup p = "has_nerve_supply~nerve_supply_of").map MrdocRow.VALUE
            ∧ ∀ v ∈ ((inversePairRows sampleMrdoc).filter
                fun p => pairGroup p = "has_nerve_supply~nerve_supply_of").map MrdocRow.VALUE,
                v ≤ r.VALUE) :=
  ⟨by decide,
    forward_unique_and_greatest sampleMrdoc "has_nerve_supply~nerve_supply_of" (by decide)⟩

end Ubkg
